import Mathlib

/-
Shallow embedding of src/app/ImportBodyComposition2GarminConnect.py.

Conventions of the embedding:
* Python values occurring in CSV cells / dataframe cells are `PyVal`;
  JSON configuration values are `JVal`.  Machine floats are modelled as
  exact rationals (all claims only involve short terminating decimals).
* Python dicts that the program builds in insertion order are association
  lists; lookup takes the first matching key.
* Code that can raise returns `Except PyErr _`; an uncaught exception is
  an `Except.error`.  `try/except` blocks that swallow exceptions are
  translated by matching on the `Except` and producing the fallback.
* External collaborators (pandas CSV reader, `pd.to_datetime` with the
  configured format string, the Garmin client) enter as explicit inputs:
  the parsed CSV (header plus cell rows), a `String → Option PyDatetime`
  parser, and a `String → List String` oracle giving the remote
  weigh-in ids for a date.  Console printing is not modelled.
-/

namespace ImportBC

/-- Naive datetime as produced by `pd.to_datetime`: year, month, day, hour,
minute (seconds are always zero in the claims' scenarios). -/
structure PyDatetime where
  y : Nat
  mo : Nat
  d : Nat
  h : Nat
  mi : Nat
deriving DecidableEq, Repr

/-- JSON configuration value (the settings document holds strings, numbers,
booleans and null at the positions the program reads). -/
inductive JVal where
  | str (s : String)
  | num (q : ℚ)
  | bool (b : Bool)
  | null
deriving DecidableEq, Repr

/-- Python runtime value found in a dataframe cell or produced by the
mapping engine. -/
inductive PyVal where
  | str (s : String)
  | num (q : ℚ)
  | dt (t : PyDatetime)
  | noneV
deriving DecidableEq, Repr

/-- Kinds of Python exceptions the translated code can raise. -/
inductive PyErr where
  | valueError
  | typeError
  | keyError
  | attributeError
  | systemExit
deriving DecidableEq, Repr

/-- One mapping rule, a JSON object `{name, type, mandatory}` with possibly
missing keys. -/
abbrev MapRule := List (String × JVal)

/-- `self.mapInfo`: canonical field name to mapping rule. -/
abbrev MapInfo := List (String × MapRule)

/-- One dataframe row as iterated by `iterrows`: column label to cell. -/
abbrev Row := List (String × PyVal)

/-- One normalized record (`rowOutput` dict): canonical field to extracted
value (`none` models Python `None`). -/
abbrev Record := List (String × Option PyVal)

/-- One section of the settings document (a JSON object). -/
abbrev PropSection := List (String × JVal)

/-- `self.jsonProperties`: section name to section object.  Sections are
JSON objects in the settings document format. -/
abbrev Props := List (String × PropSection)

/-- Dict lookup: first binding of the key, if any. -/
def assoc {α : Type} (k : String) : List (String × α) → Option α
  | [] => none
  | (k', v) :: r => if k' = k then some v else assoc k r

/-- Dict assignment `d[k] = v`: replace the first binding in place, else
append at the end (Python dict insertion-order semantics). -/
def setKey {α : Type} (k : String) (v : α) : List (String × α) → List (String × α)
  | [] => [(k, v)]
  | (k', v') :: r => if k' = k then (k, v) :: r else (k', v') :: setKey k v r

/-- Python truthiness of a JSON configuration value (a rational is zero
exactly when its reduced numerator is). -/
def jTruthy : JVal → Bool
  | .str s => !s.isEmpty
  | .num q => q.num != 0
  | .bool b => b
  | .null => false

/-- Python truthiness of a runtime value. -/
def pyTruthy : PyVal → Bool
  | .str s => !s.isEmpty
  | .num q => q.num != 0
  | .dt _ => true
  | .noneV => false

/-- Truthiness of a possibly-absent extracted value (`None` is falsy). -/
def optTruthy : Option PyVal → Bool
  | some v => pyTruthy v
  | none => false

/-- Value of a digit string, most significant first. -/
def digitsVal (l : List Char) : Nat :=
  l.foldl (fun a c => a * 10 + (c.toNat - 48)) 0

/-- Split a character list into its maximal digit prefix and the rest. -/
def spanDigits (cs : List Char) : List Char × List Char :=
  (cs.takeWhile Char.isDigit, cs.dropWhile Char.isDigit)

/-- Whitespace stripped by Python `float(str)`. -/
def isPySpace (c : Char) : Bool :=
  c == ' ' || c == '\t' || c == '\n' || c == '\r'

/-- Exponent suffix of a float literal: empty, or `e`/`E`, optional sign,
digits, consuming the whole remainder. -/
def parseExpPart : List Char → Option Int
  | [] => some 0
  | c :: r =>
    if c == 'e' || c == 'E' then
      let sr : Int × List Char :=
        match r with
        | '+' :: t => (1, t)
        | '-' :: t => (-1, t)
        | t => (1, t)
      let ds := spanDigits sr.2
      if ds.1.isEmpty || !ds.2.isEmpty then none
      else some (sr.1 * (digitsVal ds.1 : Int))
    else none

/-- Model of Python `float(str)`: optional surrounding whitespace, optional
sign, digits with at most one decimal point (at least one digit), optional
exponent.  `inf`, `nan` and digit-group underscores are outside the model
(none of the program's inputs in the claims use them). -/
def parseFloat? (s : String) : Option ℚ :=
  let cs := ((s.toList.dropWhile isPySpace).reverse.dropWhile isPySpace).reverse
  let sc : Bool × List Char :=
    match cs with
    | '+' :: t => (false, t)
    | '-' :: t => (true, t)
    | t => (false, t)
  let p1 := spanDigits sc.2
  let p2 : List Char × List Char :=
    match p1.2 with
    | '.' :: t => spanDigits t
    | t => ([], t)
  match parseExpPart p2.2 with
  | none => none
  | some e =>
    if p1.1.isEmpty && p2.1.isEmpty then none
    else
      let den : Nat := 10 ^ p2.1.length
      let mag : Nat := digitsVal p1.1 * den + digitsVal p2.1
      let q : ℚ :=
        if 0 ≤ e then mkRat (Int.ofNat (mag * 10 ^ e.toNat)) den
        else mkRat (Int.ofNat mag) (den * 10 ^ (-e).toNat)
      some (if sc.1 then -q else q)

/-- Fractional digits of `n / d` (with `n < d`), fuel-bounded long
division; terminating decimals of the claims fit well inside the fuel. -/
def fracDigits (fuel n d : Nat) : List Char :=
  match fuel, n with
  | 0, _ => []
  | _ + 1, 0 => []
  | f + 1, n => Char.ofNat (48 + n * 10 / d) :: fracDigits f (n * 10 % d) d

/-- Model of Python `str(float)` for terminating decimals: sign, integer
part, decimal point, fractional digits (`".0"` when integral). -/
def ratRepr (q : ℚ) : String :=
  let sgn := if q < 0 then "-" else ""
  let n := q.num.natAbs
  let d := q.den
  let frac := fracDigits 30 (n % d) d
  sgn ++ toString (n / d) ++ "." ++ (if frac.isEmpty then "0" else String.mk frac)

/-- Left-pad a number with zeros to the given width. -/
def padNum (w n : Nat) : String :=
  let s := toString n
  String.mk (List.replicate (w - s.length) '0') ++ s

/-- `date().isoformat()` of a datetime: `YYYY-MM-DD`. -/
def isoDate (t : PyDatetime) : String :=
  padNum 4 t.y ++ "-" ++ padNum 2 t.mo ++ "-" ++ padNum 2 t.d

/-- Model of `str` on a `pandas.Timestamp` (seconds are zero). -/
def dtRepr (t : PyDatetime) : String :=
  isoDate t ++ " " ++ padNum 2 t.h ++ ":" ++ padNum 2 t.mi ++ ":00"

/-- Model of Python `str` on a runtime value. -/
def pyStr : PyVal → String
  | .str s => s
  | .num q => ratRepr q
  | .dt t => dtRepr t
  | .noneV => "None"

/-- Python string comparison `a <= b`: code-point lexicographic order. -/
def strLeB : List Char → List Char → Bool
  | [], _ => true
  | _ :: _, [] => false
  | a :: as, b :: bs =>
    if a.toNat < b.toNat then true
    else if a.toNat = b.toNat then strLeB as bs
    else false

/-- Leading match of the `weight` regex: the maximal leading run of digit
or decimal-point characters, absent when empty. -/
def weightLead (cs : List Char) : Option (List Char) :=
  let t := cs.takeWhile (fun c => c.isDigit || c == '.')
  if t.isEmpty then none else some t

/-- First match of the `kcal` regex (digits, optional point, digits):
scan to the first digit, take the digit run, then an optional point with
the following digit run. -/
def kcalSearch : List Char → Option (List Char)
  | [] => none
  | c :: rest =>
    if c.isDigit then
      let p := spanDigits (c :: rest)
      match p.2 with
      | '.' :: r2 => some (p.1 ++ '.' :: (spanDigits r2).1)
      | _ => some p.1
    else kcalSearch rest

/-- First match of the `percent` regex (digits, point, digits): a match at
a position needs a point right after the maximal digit run and at least
one digit after it, else the search moves one character right. -/
def percentSearch : List Char → Option (List Char)
  | [] => none
  | c :: rest =>
    if c.isDigit then
      let p := spanDigits (c :: rest)
      match p.2 with
      | '.' :: r2 =>
        let q := spanDigits r2
        if q.1.isEmpty then percentSearch rest else some (p.1 ++ '.' :: q.1)
      | _ => percentSearch rest
    else percentSearch rest

/-- `getPropertyValue`: settings lookup with default; a missing section, a
missing property, or any lookup error yields the default. -/
def getPropertyValue (props : Props) (sec p : String) (dflt : JVal) : JVal :=
  match assoc sec props with
  | some l => (assoc p l).getD dflt
  | none => dflt

/-- A boolean-like flag as the program computes it:
`getPropertyValue(section, name, 'False') == 'True'`. -/
def flagValue (props : Props) (sec p : String) : Bool :=
  decide (getPropertyValue props sec p (JVal.str "False") = JVal.str "True")

/-- The `isMandatory` test of `validMandatoryValues`:
`(key in self.mapInfo) and (self.mapInfo[key]['mandatory'] == 'True')`,
any `KeyError` swallowed to `False`. -/
def isMandatoryKey (m : MapInfo) (k : String) : Bool :=
  match assoc k m with
  | some rule =>
    match assoc "mandatory" rule with
    | some v => decide (v = JVal.str "True")
    | none => false
  | none => false

/-- `validMandatoryValues`: every key of the row dict is truthy or not
mandatory (the short-circuiting loop computes exactly this conjunction;
its own `try/except` never fires since the body is total). -/
def validMandatoryValues (m : MapInfo) (out : Record) : Bool :=
  out.all (fun kv => optTruthy kv.2 || !isMandatoryKey m kv.1)

/-- Body of `getMappingColumnValue` inside the `try`: errors are the
exceptions `float` can raise before the handlers swallow them. -/
def getMappingColumnValueBody (m : MapInfo) (row : Row) (columnName : String) :
    Except PyErr (Option PyVal) :=
  match assoc columnName m with
  | none => .ok none
  | some rule =>
    match assoc "name" rule with
    | none => .ok none
    | some (JVal.str srcName) =>
      match assoc srcName row with
      | none => .ok none
      | some rowValue =>
        let colType := (assoc "type" rule).getD (JVal.str "value")
        if colType = JVal.str "weight" then
          match weightLead (pyStr rowValue).toList with
          | none => .ok none
          | some tok =>
            match parseFloat? (String.mk tok) with
            | some q => .ok (some (.num q))
            | none => .error .valueError
        else if colType = JVal.str "kcal" then
          match kcalSearch (pyStr rowValue).toList with
          | none => .ok none
          | some tok =>
            match parseFloat? (String.mk tok) with
            | some q => .ok (some (.num q))
            | none => .error .valueError
        else if colType = JVal.str "percent" then
          match percentSearch (pyStr rowValue).toList with
          | none => .ok none
          | some tok =>
            match parseFloat? (String.mk tok) with
            | some q => .ok (some (.num q))
            | none => .error .valueError
        else if colType = JVal.str "value" then
          match rowValue with
          | .num q => .ok (some (.num q))
          | .str s =>
            match parseFloat? s with
            | some q => .ok (some (.num q))
            | none => .error .valueError
          | _ => .error .typeError
        else
          .ok (some rowValue)
    | some _ => .ok none

/-- `getMappingColumnValue`: the `try` body with every exception swallowed
to `None` by the `except` clauses. -/
def getMappingColumnValue (m : MapInfo) (row : Row) (c : String) : Option PyVal :=
  match getMappingColumnValueBody m row c with
  | .ok v => v
  | .error _ => none

/-- The fixed canonical columns of the `BodyComposition` dataframe. -/
def bcColumns : List String :=
  ["timestamp", "weight", "percent_fat", "percent_hydration", "visceral_fat_mass",
   "bone_mass", "muscle_mass", "basal_met", "active_met", "physique_rating",
   "metabolic_age", "visceral_fat_rating", "bmi"]

/-- `getMappingRowValues`: extract every canonical column from the row. -/
def getMappingRowValues (m : MapInfo) (row : Row) : Record :=
  bcColumns.map (fun k => (k, getMappingColumnValue m row k))

/-- The parsed CSV: header row plus the data rows' cells (pandas
`read_csv` output; rows are assumed well-formed, ragged rows are outside
the model). -/
structure Csv where
  header : List String
  rows : List (List PyVal)

/-- Equality as used by the `findRecord` dataframe comparison: Python
`==` between cell values, false across types. -/
def pyEqB (a b : PyVal) : Bool :=
  match a, b with
  | .str x, .str y => decide (x = y)
  | .num x, .num y => decide (x = y)
  | .dt x, .dt y => decide (x = y)
  | .noneV, .noneV => true
  | _, _ => false

/-- Equality on possibly-absent values (Python `None == None` is true). -/
def optEqB : Option PyVal → Option PyVal → Bool
  | some a, some b => pyEqB a b
  | none, none => true
  | _, _ => false

/-- The `timestamp` entry of a record (`rowOutput['timestamp']`). -/
def tsCell (r : Record) : Option PyVal :=
  match assoc "timestamp" r with
  | some v => v
  | none => none

/-- `rowOutput['timestamp'].date().isoformat()`: only a datetime value
has `.date()`, anything else raises. -/
def tsDateISO (out : Record) : Except PyErr String :=
  match tsCell out with
  | some (.dt t) => .ok (isoDate t)
  | _ => .error .attributeError

/-- Timestamp sort key of a record; records whose timestamp is not a
datetime never arise in reachable record sets. -/
def tsKey (r : Record) : PyDatetime :=
  match tsCell r with
  | some (.dt t) => t
  | _ => ⟨0, 0, 0, 0, 0⟩

/-- Chronological order on naive datetimes (field-lexicographic). -/
def dtLeP (a b : PyDatetime) : Prop :=
  a.y < b.y ∨ (a.y = b.y ∧ (a.mo < b.mo ∨ (a.mo = b.mo ∧ (a.d < b.d ∨ (a.d = b.d ∧
    (a.h < b.h ∨ (a.h = b.h ∧ a.mi ≤ b.mi)))))))

instance : DecidableRel dtLeP := fun a b => by unfold dtLeP; exact inferInstance

/-- The `sort_values(by=['timestamp'])` order on records. -/
def recLE (r s : Record) : Prop := dtLeP (tsKey r) (tsKey s)

instance : DecidableRel recLE := fun r s => by unfold recLE dtLeP; exact inferInstance

instance : IsTotal Record recLE := ⟨fun r s => by unfold recLE dtLeP; omega⟩

instance : IsTrans Record recLE := ⟨fun a b c => by unfold recLE dtLeP; omega⟩

/-- The watermark guard
`not self.lastDate or (dateISOformat >= self.lastDate)`: a falsy
watermark passes every row; a truthy one must be a string to be
comparable with the ISO date string. -/
def watermarkTest (lastDate : JVal) (dISO : String) : Except PyErr Bool :=
  if jTruthy lastDate then
    match lastDate with
    | .str s => .ok (strLeB s.toList dISO.toList)
    | _ => .error .typeError
  else .ok true

/-- Python `==` between a mapped cell value and a configuration value, as
in the user filter `getMappingColumnValue(row, 'userName') == user`. -/
def pyEqConfig : Option PyVal → JVal → Bool
  | some (.str s), .str u => decide (s = u)
  | some (.num q), .num u => decide (q = u)
  | none, .null => true
  | _, _ => false

/-- The user filter of the row loop:
`(not filterByUser) or getMappingColumnValue(rowInput, 'userName') == user`. -/
def considered (fbu : Bool) (user : JVal) (m : MapInfo) (row : Row) : Bool :=
  !fbu || pyEqConfig (getMappingColumnValue m row "userName") user

/-- Whether the duplicate-timestamp lookup `findRecord` finds the new
record's timestamp in the current record set. -/
def tsIn (t : Option PyVal) (bc : List Record) : Bool :=
  bc.any (fun r => optEqB (tsCell r) t)

/-- Decision of the loop body for one considered row: timestamp date,
watermark, mandatory validation, and duplicate lookup; `.ok true` means
the row is appended. -/
def rowStep (m : MapInfo) (lastDate : JVal) (row : Row) (bc : List Record) :
    Except PyErr Bool :=
  let out := getMappingRowValues m row
  match tsDateISO out with
  | .error e => .error e
  | .ok dISO =>
    match watermarkTest lastDate dISO with
    | .error e => .error e
    | .ok pass =>
      .ok (pass && (validMandatoryValues m out && !tsIn (tsCell out) bc))

/-- The row loop of `processWeightFile`: user filter, then the row
decision, appending the normalized record and counting on insertion. -/
def insertLoop (m : MapInfo) (lastDate : JVal) (fbu : Bool) (user : JVal) :
    List Row → List Record → Nat → Except PyErr (List Record × Nat)
  | [], bc, n => .ok (bc, n)
  | row :: rest, bc, n =>
    if considered fbu user m row then
      match rowStep m lastDate row bc with
      | .error e => .error e
      | .ok true =>
        insertLoop m lastDate fbu user rest (bc ++ [getMappingRowValues m row]) (n + 1)
      | .ok false => insertLoop m lastDate fbu user rest bc n
    else insertLoop m lastDate fbu user rest bc n

/-- `self.mapInfo['timestamp']['name']`: a missing rule or a missing or
non-string name raises a lookup error (a non-string label is not among
the CSV's string column labels). -/
def tsRuleName (m : MapInfo) : Except PyErr String :=
  match assoc "timestamp" m with
  | none => .error .keyError
  | some rule =>
    match assoc "name" rule with
    | none => .error .keyError
    | some (JVal.str n) => .ok n
    | some _ => .error .keyError

/-- `pd.to_datetime` on one timestamp cell with the configured format:
strings must parse, datetimes pass through, other types raise. -/
def convCell (parseTs : String → Option PyDatetime) : PyVal → Except PyErr PyVal
  | .str s =>
    match parseTs s with
    | some t => .ok (.dt t)
    | none => .error .valueError
  | .dt t => .ok (.dt t)
  | _ => .error .typeError

/-- Convert the timestamp column of one row. -/
def convRow (tsName : String) (parseTs : String → Option PyDatetime) :
    Row → Except PyErr Row
  | [] => .error .keyError
  | (k, v) :: r =>
    if k = tsName then
      match convCell parseTs v with
      | .ok v' => .ok ((k, v') :: r)
      | .error e => .error e
    else
      match convRow tsName parseTs r with
      | .ok r' => .ok ((k, v) :: r')
      | .error e => .error e

/-- Rank used to totalize cross-type cell comparisons in the input sort
(pandas raises on mixed-type sort keys; the totalization only extends the
model to runs that crash in the source). -/
def pvRank : PyVal → Nat
  | .noneV => 0
  | .num _ => 1
  | .str _ => 2
  | .dt _ => 3

/-- Cell order for `sort_values` on an input column. -/
def pvLeB (a b : PyVal) : Bool :=
  match a, b with
  | .num x, .num y => decide (x ≤ y)
  | .str x, .str y => strLeB x.toList y.toList
  | .dt x, .dt y => decide (dtLeP x y)
  | x, y => decide (pvRank x ≤ pvRank y)

/-- Cell of a row under a column label, `NaN`-like default when absent. -/
def rowCell (name : String) (row : Row) : PyVal :=
  match assoc name row with
  | some v => v
  | none => .noneV

/-- Row order for `sort_values(by=[timestamp])`. -/
def rowLeByTs (tsName : String) (a b : Row) : Bool :=
  pvLeB (rowCell tsName a) (rowCell tsName b)

/-- Row order for `sort_values(by=[userName, timestamp])`. -/
def rowLeByUserTs (uName tsName : String) (a b : Row) : Bool :=
  let ua := rowCell uName a
  let ub := rowCell uName b
  if ua = ub then rowLeByTs tsName a b else pvLeB ua ub

/-- Insert into a list sorted by a boolean comparison. -/
def insertB {α : Type} (le : α → α → Bool) (a : α) : List α → List α
  | [] => [a]
  | b :: l => if le a b then a :: b :: l else b :: insertB le a l

/-- Comparison sort of the input rows (with unique keys any comparison
sort agrees with the pandas sort). -/
def isortB {α : Type} (le : α → α → Bool) : List α → List α
  | [] => []
  | a :: l => insertB le a (isortB le l)

/-- The optional input sort of `processWeightFile`:
`sort_values(by=[userName, timestamp])` under the user filter, else
`sort_values(by=[timestamp])`; the `userName` rule lookups can raise. -/
def sortStep (m : MapInfo) (fbu sortData : Bool) (tsName : String) (rows : List Row) :
    Except PyErr (List Row) :=
  if sortData then
    if fbu then
      match assoc "userName" m with
      | none => .error .keyError
      | some rule =>
        match assoc "name" rule with
        | some (JVal.str uName) => .ok (isortB (rowLeByUserTs uName tsName) rows)
        | _ => .error .keyError
    else .ok (isortB (rowLeByTs tsName) rows)
  else .ok rows

/-- Input preparation of `processWeightFile`: timestamp rule lookup,
column presence, `pd.to_datetime` over the timestamp column, optional
input sort. -/
def prepRows (props : Props) (m : MapInfo) (parseTs : String → Option PyDatetime)
    (csv : Csv) : Except PyErr (List Row) :=
  match tsRuleName m with
  | .error e => .error e
  | .ok tsName =>
    if tsName ∈ csv.header then
      match (csv.rows.map (fun cells => csv.header.zip cells)).mapM
          (convRow tsName parseTs) with
      | .error e => .error e
      | .ok rows1 =>
        sortStep m (flagValue props "data" "filterByUser")
          (flagValue props "data" "sortData") tsName rows1
    else .error .keyError

/-- `processWeightFile`: configuration checks, input preparation, the row
loop, and the final `sort_values(by=['timestamp'])`; the result carries
the new record set, the row count read, the inserted count, and the
discarded count. -/
def processWeightFile (props : Props) (m : MapInfo) (lastDate : JVal)
    (parseTs : String → Option PyDatetime) (csv : Csv) (bc : List Record) :
    Except PyErr (List Record × Nat × Nat × Nat) :=
  let fbu := flagValue props "data" "filterByUser"
  let user := getPropertyValue props "data" "user" .null
  let dtFormat := getPropertyValue props "data" "dateTimeFormat" .null
  if !jTruthy dtFormat then .error .systemExit
  else if fbu && !jTruthy user then .error .systemExit
  else
    match prepRows props m parseTs csv with
    | .error e => .error e
    | .ok rows =>
      match insertLoop m lastDate fbu user rows bc 0 with
      | .error e => .error e
      | .ok (bc1, inserted) =>
        .ok (bc1.insertionSort recLE, rows.length, inserted, rows.length - inserted)

/-- Value of a decimal digit character. -/
def digitV (c : Char) : Nat := c.toNat - 48

/-- Model of `pd.to_datetime(_, format='%Y-%m-%d %H:%M')`, the format of
the claims' scenarios. -/
def parseYmdHM (s : String) : Option PyDatetime :=
  match s.toList with
  | [y1, y2, y3, y4, '-', m1, m2, '-', d1, d2, ' ', h1, h2, ':', n1, n2] =>
    if y1.isDigit && y2.isDigit && y3.isDigit && y4.isDigit && m1.isDigit &&
        m2.isDigit && d1.isDigit && d2.isDigit && h1.isDigit && h2.isDigit &&
        n1.isDigit && n2.isDigit then
      let y := digitsVal [y1, y2, y3, y4]
      let mo := digitsVal [m1, m2]
      let dd := digitsVal [d1, d2]
      let hh := digitsVal [h1, h2]
      let mm := digitsVal [n1, n2]
      if 1 ≤ mo && mo ≤ 12 && 1 ≤ dd && dd ≤ 31 && hh ≤ 23 && mm ≤ 59 then
        some ⟨y, mo, dd, hh, mm⟩
      else none
    else none
  | _ => none

/-- Observable actions of `loadDataOnGarminConnect`: the in-memory
watermark assignment and the three Garmin client calls, in program
order. -/
inductive ApiEvent where
  | setLast (d : String)
  | getDaily (d : String)
  | delWeigh (pk : String) (d : String)
  | addBody (r : Record)
deriving DecidableEq, Repr

/-- `self.jsonProperties['data']['lastDate'] = dateISOformat`: raises if
the settings document has no `data` section. -/
def setLastDate (props : Props) (d : String) : Except PyErr Props :=
  match assoc "data" props with
  | some sec => .ok (setKey "data" (setKey "lastDate" (JVal.str d) sec) props)
  | none => .error .keyError

/-- The record loop of `loadDataOnGarminConnect`, with the accumulated
list of dates already encountered; `remote` gives the `samplePk` ids of
the existing remote weigh-ins for a date. -/
def loadLoop (del : Bool) (remote : String → List String) :
    List Record → List String → Props → Except PyErr (List ApiEvent × Props × Nat)
  | [], _, props => .ok ([], props, 0)
  | r :: rest, dates, props =>
    match tsDateISO r with
    | .error e => .error e
    | .ok d =>
      if d ∈ dates then
        match loadLoop del remote rest dates props with
        | .error e => .error e
        | .ok (evs, props', n) => .ok (.addBody r :: evs, props', n + 1)
      else
        match setLastDate props d with
        | .error e => .error e
        | .ok props1 =>
          let fetched := remote d
          let delEvs :=
            if del && !fetched.isEmpty then
              fetched.map (fun pk => ApiEvent.delWeigh pk d)
            else []
          match loadLoop del remote rest (dates ++ [d]) props1 with
          | .error e => .error e
          | .ok (evs, props', n) =>
            .ok (.setLast d :: .getDaily d :: (delEvs ++ .addBody r :: evs), props', n + 1)

/-- `loadDataOnGarminConnect`: when the `callAPI` flag is off nothing
happens; otherwise the record loop runs from an empty date list.  The
result carries the event trace, the final settings document, and the
loaded count. -/
def loadDataOnGarminConnect (props : Props) (bc : List Record)
    (remote : String → List String) : Except PyErr (List ApiEvent × Props × Nat) :=
  if flagValue props "data" "callAPI" then
    loadLoop (flagValue props "data" "deleteOldData") remote bc [] props
  else .ok ([], props, 0)

/-- Record sets reachable from the empty dataframe by successful
`processWeightFile` calls (a raising call kills the program run). -/
inductive ReachableBC : List Record → Prop where
  | empty : ReachableBC []
  | step {props m lastDate parseTs csv bc bc' f i d} :
      ReachableBC bc →
      processWeightFile props m lastDate parseTs csv bc = .ok (bc', f, i, d) →
      ReachableBC bc'

/-- No two records of the set have equal timestamps. -/
def tsDistinct (bc : List Record) : Prop :=
  List.Pairwise (fun r s => optEqB (tsCell r) (tsCell s) = false) bc

/-- Token the specification's words describe for the `weight` rule type:
the leading run of digits with at most a single decimal point. -/
def specWeightTokenAux : List Char → Bool → List Char
  | [], _ => []
  | c :: r, seenDot =>
    if c.isDigit then c :: specWeightTokenAux r seenDot
    else if c = '.' && !seenDot then c :: specWeightTokenAux r true
    else []

/-- Modelled from the spec (for comparison with the code): the `weight`
extraction as the specification states it, "the leading numeric token
(digits and a single decimal point) of the stringified value, parsed as a
floating-point number; if the string does not begin with such a token the
result is absent". -/
def specWeightExtract (s : String) : Option ℚ :=
  let t := specWeightTokenAux s.toList false
  if t.any Char.isDigit then parseFloat? (String.mk t) else none

/-! Concrete configurations and inputs used to instantiate the claims. -/

/-- Mapping schema of the acceptance scenario: `timestamp` and `weight`
mandatory, weight extracted with the `weight` rule type. -/
def m3 : MapInfo :=
  [("timestamp", [("name", JVal.str "Date"), ("type", JVal.str "timestamp"),
     ("mandatory", JVal.str "True")]),
   ("weight", [("name", JVal.str "Weight"), ("type", JVal.str "weight"),
     ("mandatory", JVal.str "True")])]

/-- Settings of the acceptance scenario: only a date-time format. -/
def props3 : Props := [("data", [("dateTimeFormat", JVal.str "%Y-%m-%d %H:%M")])]

/-- CSV of the acceptance scenario: a valid row, a duplicate-timestamp
row, and a missing-weight row. -/
def csv3 : Csv :=
  ⟨["Date", "Weight"],
   [[PyVal.str "2024-01-01 08:00", PyVal.str "70.5kg"],
    [PyVal.str "2024-01-01 08:00", PyVal.str "71.0kg"],
    [PyVal.str "2024-01-02 08:00", PyVal.str ""]]⟩

/-- The single record the acceptance scenario produces. -/
def rec3 : Record :=
  [("timestamp", some (PyVal.dt ⟨2024, 1, 1, 8, 0⟩)),
   ("weight", some (PyVal.num (mkRat 141 2))),
   ("percent_fat", none), ("percent_hydration", none),
   ("visceral_fat_mass", none), ("bone_mass", none), ("muscle_mass", none),
   ("basal_met", none), ("active_met", none), ("physique_rating", none),
   ("metabolic_age", none), ("visceral_fat_rating", none), ("bmi", none)]

/-- Mapping schema with a single `value`-typed rule. -/
def mVal : MapInfo := [("x", [("name", JVal.str "W"), ("type", JVal.str "value")])]

/-- Row whose cell cannot be coerced to a float. -/
def rowVal : Row := [("W", PyVal.str "abc")]

/-- Mapping schema with a single `weight`-typed rule. -/
def mW8 : MapInfo := [("weight", [("name", JVal.str "W"), ("type", JVal.str "weight")])]

/-- Row whose weight cell has two decimal points. -/
def rowW8 : Row := [("W", PyVal.str "1.2.3")]

/-- Row with a unit suffix after the weight. -/
def rowW8b : Row := [("W", PyVal.str "70.5kg")]

/-- CSV with one row before and one row after the watermark date. -/
def csv4 : Csv :=
  ⟨["Date", "Weight"],
   [[PyVal.str "2024-01-01 08:00", PyVal.str "70.5kg"],
    [PyVal.str "2024-01-02 09:00", PyVal.str "71.0kg"]]⟩

/-- The record `csv4` inserts under watermark `2024-01-02`. -/
def rec4 : Record :=
  [("timestamp", some (PyVal.dt ⟨2024, 1, 2, 9, 0⟩)),
   ("weight", some (PyVal.num (mkRat 71 1))),
   ("percent_fat", none), ("percent_hydration", none),
   ("visceral_fat_mass", none), ("bone_mass", none), ("muscle_mass", none),
   ("basal_met", none), ("active_met", none), ("physique_rating", none),
   ("metabolic_age", none), ("visceral_fat_rating", none), ("bmi", none)]

/-- Settings with the remote-call flag on and the delete flag absent. -/
def props7 : Props := [("data", [("callAPI", JVal.str "True")])]

/-- A single record dated 2024-01-01. -/
def rec7 : Record := [("timestamp", some (PyVal.dt ⟨2024, 1, 1, 8, 0⟩))]

/-- The trace the importer produces on `props7`, `rec7`. -/
def trace7 : List ApiEvent :=
  [.setLast "2024-01-01", .getDaily "2024-01-01", .addBody rec7]

/-! Helper lemmas about the row loop and the pipeline. -/

theorem pyEqB_refl (v : PyVal) : pyEqB v v = true := by
  cases v <;> simp [pyEqB]

theorem pyEqB_symm (a b : PyVal) : pyEqB a b = pyEqB b a := by
  cases a <;> cases b <;> simp [pyEqB, eq_comm]

theorem optEqB_refl (t : Option PyVal) : optEqB t t = true := by
  cases t <;> simp [optEqB, pyEqB_refl]

theorem optEqB_symm (a b : Option PyVal) : optEqB a b = optEqB b a := by
  cases a <;> cases b <;> simp [optEqB, pyEqB_symm]

theorem tsIn_append (t : Option PyVal) (bc ext : List Record) :
    tsIn t (bc ++ ext) = (tsIn t bc || tsIn t ext) := by
  simp [tsIn, List.any_append]

theorem tsIn_perm (t : Option PyVal) {bc bc' : List Record} (hp : bc.Perm bc') :
    tsIn t bc = tsIn t bc' := by
  refine Bool.eq_iff_iff.mpr ?_
  simp only [tsIn, List.any_eq_true]
  constructor
  · rintro ⟨r, hr, h⟩; exact ⟨r, hp.mem_iff.mp hr, h⟩
  · rintro ⟨r, hr, h⟩; exact ⟨r, hp.mem_iff.mpr hr, h⟩

/-- Characterization of the per-row decision. -/
theorem rowStep_ok_iff {m : MapInfo} {ld : JVal} {row : Row} {bc : List Record}
    {b : Bool} :
    rowStep m ld row bc = .ok b ↔
    ∃ d pass, tsDateISO (getMappingRowValues m row) = .ok d ∧
      watermarkTest ld d = .ok pass ∧
      b = (pass && (validMandatoryValues m (getMappingRowValues m row) &&
        !tsIn (tsCell (getMappingRowValues m row)) bc)) := by
  unfold rowStep
  cases hts : tsDateISO (getMappingRowValues m row) with
  | error e => simp [hts]
  | ok d =>
    cases hwm : watermarkTest ld d with
    | error e => simp [hts, hwm]
    | ok pass =>
      simp only [hts, hwm]
      constructor
      · intro h
        injection h with h
        exact ⟨d, pass, rfl, hwm, h.symm⟩
      · rintro ⟨d', pass', hd, hp, hb⟩
        injection hd with hd
        subst hd
        rw [hwm] at hp
        injection hp with hp
        subst hp
        subst hb
        rfl

/-- The row loop only appends records. -/
theorem insertLoop_extend {m : MapInfo} {ld : JVal} {fbu : Bool} {user : JVal} :
    ∀ {rows : List Row} {bc : List Record} {n : Nat} {bc' : List Record} {n' : Nat},
      insertLoop m ld fbu user rows bc n = .ok (bc', n') → ∃ ext, bc' = bc ++ ext
  | [], bc, n, bc', n', h => by
    injection h with h
    injection h with h1 h2
    subst h1
    exact ⟨[], by simp⟩
  | row :: rest, bc, n, bc', n', h => by
    unfold insertLoop at h
    by_cases hc : considered fbu user m row = true
    · rw [if_pos hc] at h
      cases hs : rowStep m ld row bc with
      | error e => rw [hs] at h; exact absurd h (by simp)
      | ok b =>
        rw [hs] at h
        cases b with
        | true =>
          obtain ⟨ext, hext⟩ := insertLoop_extend h
          exact ⟨getMappingRowValues m row :: ext, by simp [hext]⟩
        | false => exact insertLoop_extend h
    · rw [if_neg hc] at h
      exact insertLoop_extend h

/-- The row loop preserves timestamp distinctness. -/
theorem insertLoop_distinct {m : MapInfo} {ld : JVal} {fbu : Bool} {user : JVal} :
    ∀ {rows : List Row} {bc : List Record} {n : Nat} {bc' : List Record} {n' : Nat},
      insertLoop m ld fbu user rows bc n = .ok (bc', n') → tsDistinct bc → tsDistinct bc'
  | [], bc, n, bc', n', h, hd => by
    injection h with h
    injection h with h1 h2
    subst h1
    exact hd
  | row :: rest, bc, n, bc', n', h, hd => by
    unfold insertLoop at h
    by_cases hc : considered fbu user m row = true
    · rw [if_pos hc] at h
      cases hs : rowStep m ld row bc with
      | error e => rw [hs] at h; exact absurd h (by simp)
      | ok b =>
        rw [hs] at h
        cases b with
        | true =>
          refine insertLoop_distinct h ?_
          obtain ⟨d, pass, -, -, hb⟩ := rowStep_ok_iff.mp hs
          have hni : tsIn (tsCell (getMappingRowValues m row)) bc = false := by
            cases hin : tsIn (tsCell (getMappingRowValues m row)) bc with
            | false => rfl
            | true => simp [hin] at hb
          rw [tsDistinct, List.pairwise_append]
          refine ⟨hd, by simp, ?_⟩
          intro r hr s hs'
          rw [List.mem_singleton] at hs'
          subst hs'
          have := List.any_eq_false.mp hni r hr
          simpa using this
        | false => exact insertLoop_distinct h hd
    · rw [if_neg hc] at h
      exact insertLoop_distinct h hd

/-- Every record of the loop result was already present or entered
through a row that passed the watermark test. -/
theorem insertLoop_inserted {m : MapInfo} {ld : JVal} {fbu : Bool} {user : JVal} :
    ∀ {rows : List Row} {bc : List Record} {n : Nat} {bc' : List Record} {n' : Nat},
      insertLoop m ld fbu user rows bc n = .ok (bc', n') →
      ∀ r ∈ bc', r ∈ bc ∨ ∃ d, tsDateISO r = .ok d ∧ watermarkTest ld d = .ok true
  | [], bc, n, bc', n', h, r, hr => by
    injection h with h
    injection h with h1 h2
    subst h1
    exact Or.inl hr
  | row :: rest, bc, n, bc', n', h, r, hr => by
    unfold insertLoop at h
    by_cases hc : considered fbu user m row = true
    · rw [if_pos hc] at h
      cases hs : rowStep m ld row bc with
      | error e => rw [hs] at h; exact absurd h (by simp)
      | ok b =>
        rw [hs] at h
        cases b with
        | true =>
          rcases insertLoop_inserted h r hr with hin | hpass
          · rcases List.mem_append.mp hin with hin | hin
            · exact Or.inl hin
            · rw [List.mem_singleton] at hin
              subst hin
              obtain ⟨d, pass, hd, hw, hb⟩ := rowStep_ok_iff.mp hs
              have hpt : pass = true := by
                cases pass with
                | true => rfl
                | false => simp at hb
              subst hpt
              exact Or.inr ⟨d, hd, hw⟩
          · exact Or.inr hpass
        | false => exact insertLoop_inserted h r hr
    · rw [if_neg hc] at h
      exact insertLoop_inserted h r hr

/-- A successful loop run extracted a timestamp date from every
considered row. -/
theorem insertLoop_ok_ts {m : MapInfo} {ld : JVal} {fbu : Bool} {user : JVal} :
    ∀ {rows : List Row} {bc : List Record} {n : Nat} {res : List Record × Nat},
      insertLoop m ld fbu user rows bc n = .ok res →
      ∀ row ∈ rows, considered fbu user m row = true →
        ∃ d, tsDateISO (getMappingRowValues m row) = .ok d
  | [], bc, n, res, h, row, hrow, hc => by cases hrow
  | row0 :: rest, bc, n, res, h, row, hrow, hc => by
    unfold insertLoop at h
    rcases List.mem_cons.mp hrow with hrow | hrow
    · subst hrow
      rw [if_pos hc] at h
      cases hs : rowStep m ld row bc with
      | error e => rw [hs] at h; exact absurd h (by simp)
      | ok b =>
        obtain ⟨d, pass, hd, -, -⟩ := rowStep_ok_iff.mp hs
        exact ⟨d, hd⟩
    · by_cases hc0 : considered fbu user m row0 = true
      · rw [if_pos hc0] at h
        cases hs : rowStep m ld row0 bc with
        | error e => rw [hs] at h; exact absurd h (by simp)
        | ok b =>
          rw [hs] at h
          cases b with
          | true => exact insertLoop_ok_ts h row hrow hc
          | false => exact insertLoop_ok_ts h row hrow hc
      · rw [if_neg hc0] at h
        exact insertLoop_ok_ts h row hrow hc

/-- After a successful loop run, every considered, watermark-passing,
valid row has its timestamp present in the final record set. -/
theorem insertLoop_mem_final {m : MapInfo} {ld : JVal} {fbu : Bool} {user : JVal} :
    ∀ {rows : List Row} {bc : List Record} {n : Nat} {bc' : List Record} {n' : Nat},
      insertLoop m ld fbu user rows bc n = .ok (bc', n') →
      ∀ row ∈ rows, considered fbu user m row = true →
        ∃ d w, tsDateISO (getMappingRowValues m row) = .ok d ∧
          watermarkTest ld d = .ok w ∧
          (w = true → validMandatoryValues m (getMappingRowValues m row) = true →
            tsIn (tsCell (getMappingRowValues m row)) bc' = true)
  | [], bc, n, bc', n', h, row, hrow, hc => by cases hrow
  | row0 :: rest, bc, n, bc', n', h, row, hrow, hc => by
    unfold insertLoop at h
    rcases List.mem_cons.mp hrow with hrow | hrow
    · subst hrow
      rw [if_pos hc] at h
      cases hs : rowStep m ld row bc with
      | error e => rw [hs] at h; exact absurd h (by simp)
      | ok b =>
        rw [hs] at h
        obtain ⟨d, pass, hd, hw, hb⟩ := rowStep_ok_iff.mp hs
        refine ⟨d, pass, hd, hw, fun hpt hv => ?_⟩
        subst hpt
        rw [hv] at hb
        simp only [Bool.true_and] at hb
        cases b with
        | true =>
          obtain ⟨ext, hext⟩ := insertLoop_extend h
          subst hext
          rw [tsIn_append, tsIn_append]
          have : tsIn (tsCell (getMappingRowValues m row))
              [getMappingRowValues m row] = true := by
            simp [tsIn, optEqB_refl]
          simp [this]
        | false =>
          have : tsIn (tsCell (getMappingRowValues m row)) bc = true := by
            cases hin : tsIn (tsCell (getMappingRowValues m row)) bc with
            | true => rfl
            | false => rw [hin] at hb; simp at hb
          obtain ⟨ext, hext⟩ := insertLoop_extend h
          subst hext
          rw [tsIn_append, this]
          rfl
    · by_cases hc0 : considered fbu user m row0 = true
      · rw [if_pos hc0] at h
        cases hs : rowStep m ld row0 bc with
        | error e => rw [hs] at h; exact absurd h (by simp)
        | ok b =>
          rw [hs] at h
          cases b with
          | true => exact insertLoop_mem_final h row hrow hc
          | false => exact insertLoop_mem_final h row hrow hc
      · rw [if_neg hc0] at h
        exact insertLoop_mem_final h row hrow hc

/-- When every considered row is either watermark-filtered, invalid, or
already present, the loop inserts nothing and keeps the record set. -/
theorem insertLoop_noop {m : MapInfo} {ld : JVal} {fbu : Bool} {user : JVal} :
    ∀ {rows : List Row} {bc : List Record} {n : Nat},
      (∀ row ∈ rows, considered fbu user m row = true →
        ∃ d w, tsDateISO (getMappingRowValues m row) = .ok d ∧
          watermarkTest ld d = .ok w ∧
          (w = true → validMandatoryValues m (getMappingRowValues m row) = true →
            tsIn (tsCell (getMappingRowValues m row)) bc = true)) →
      insertLoop m ld fbu user rows bc n = .ok (bc, n)
  | [], bc, n, _ => rfl
  | row0 :: rest, bc, n, hall => by
    unfold insertLoop
    by_cases hc0 : considered fbu user m row0 = true
    · rw [if_pos hc0]
      obtain ⟨d, w, hd, hw, himp⟩ := hall row0 (List.mem_cons_self _ _) hc0
      have hstep : rowStep m ld row0 bc = .ok
          (w && (validMandatoryValues m (getMappingRowValues m row0) &&
            !tsIn (tsCell (getMappingRowValues m row0)) bc)) :=
        rowStep_ok_iff.mpr ⟨d, w, hd, hw, rfl⟩
      have hfalse : (w && (validMandatoryValues m (getMappingRowValues m row0) &&
          !tsIn (tsCell (getMappingRowValues m row0)) bc)) = false := by
        cases hwv : w with
        | false => rfl
        | true =>
          cases hv : validMandatoryValues m (getMappingRowValues m row0) with
          | false => simp
          | true => simp [himp hwv hv]
      rw [hstep, hfalse]
      exact insertLoop_noop (fun row hrow hc => hall row (List.mem_cons_of_mem _ hrow) hc)
    · rw [if_neg hc0]
      exact insertLoop_noop (fun row hrow hc => hall row (List.mem_cons_of_mem _ hrow) hc)

/-- Destructuring of a successful `processWeightFile` call. -/
theorem processWeightFile_ok_elim {props : Props} {m : MapInfo} {ld : JVal}
    {pts : String → Option PyDatetime} {csv : Csv} {bc : List Record}
    {out : List Record × Nat × Nat × Nat}
    (h : processWeightFile props m ld pts csv bc = .ok out) :
    jTruthy (getPropertyValue props "data" "dateTimeFormat" JVal.null) = true ∧
    (flagValue props "data" "filterByUser" &&
      !jTruthy (getPropertyValue props "data" "user" JVal.null)) = false ∧
    ∃ rows bc1 ins,
      prepRows props m pts csv = .ok rows ∧
      insertLoop m ld (flagValue props "data" "filterByUser")
        (getPropertyValue props "data" "user" JVal.null) rows bc 0 = .ok (bc1, ins) ∧
      out = (bc1.insertionSort recLE, rows.length, ins, rows.length - ins) := by
  unfold processWeightFile at h
  by_cases h1 : jTruthy (getPropertyValue props "data" "dateTimeFormat" JVal.null) = true
  · simp only [h1, Bool.not_true, Bool.false_eq_true, if_false] at h
    by_cases h2 : (flagValue props "data" "filterByUser" &&
        !jTruthy (getPropertyValue props "data" "user" JVal.null)) = true
    · rw [if_pos h2] at h
      exact absurd h (by simp)
    · rw [if_neg h2] at h
      cases hp : prepRows props m pts csv with
      | error e => simp [hp] at h
      | ok rows =>
        simp only [hp] at h
        cases hl : insertLoop m ld (flagValue props "data" "filterByUser")
            (getPropertyValue props "data" "user" JVal.null) rows bc 0 with
        | error e => simp [hl] at h
        | ok p =>
          obtain ⟨bc1, ins⟩ := p
          simp only [hl] at h
          injection h with h
          exact ⟨h1, by simpa using h2, rows, bc1, ins, rfl, hl, h.symm⟩
  · rw [Bool.not_eq_true] at h1
    simp only [h1, Bool.not_false, if_true] at h
    exact absurd h (by simp)

/-- Reassembly of a `processWeightFile` call from its stages. -/
theorem processWeightFile_ok_intro {props : Props} {m : MapInfo} {ld : JVal}
    {pts : String → Option PyDatetime} {csv : Csv} {bc : List Record}
    {rows : List Row} {bc1 : List Record} {ins : Nat}
    (h1 : jTruthy (getPropertyValue props "data" "dateTimeFormat" JVal.null) = true)
    (h2 : (flagValue props "data" "filterByUser" &&
      !jTruthy (getPropertyValue props "data" "user" JVal.null)) = false)
    (hp : prepRows props m pts csv = .ok rows)
    (hl : insertLoop m ld (flagValue props "data" "filterByUser")
      (getPropertyValue props "data" "user" JVal.null) rows bc 0 = .ok (bc1, ins)) :
    processWeightFile props m ld pts csv bc =
      .ok (bc1.insertionSort recLE, rows.length, ins, rows.length - ins) := by
  unfold processWeightFile
  simp only [h1, Bool.not_true, Bool.false_eq_true, if_false, h2, hp, hl]

/-! Helper lemmas about the import loop trace. -/

/-- Pairwise order property: no push of a record precedes a deletion for
its own date. -/
def noAddThenDel (a b : ApiEvent) : Prop :=
  ∀ r pk d, a = ApiEvent.addBody r → b = ApiEvent.delWeigh pk d → tsDateISO r ≠ .ok d

/-- Pairwise order property: no push of a record precedes the watermark
assignment for its own date. -/
def noAddThenSet (a b : ApiEvent) : Prop :=
  ∀ r d, a = ApiEvent.addBody r → b = ApiEvent.setLast d → tsDateISO r ≠ .ok d

theorem noAddThenDel_of_not_add {a : ApiEvent} (h : ∀ r, a ≠ ApiEvent.addBody r)
    (b : ApiEvent) : noAddThenDel a b := by
  intro r pk d h1 _
  exact absurd h1 (h r)

theorem noAddThenSet_of_not_add {a : ApiEvent} (h : ∀ r, a ≠ ApiEvent.addBody r)
    (b : ApiEvent) : noAddThenSet a b := by
  intro r d h1 _
  exact absurd h1 (h r)

theorem pairwise_of_forall_left {α : Type} {Q : α → α → Prop} :
    ∀ {l : List α}, (∀ a ∈ l, ∀ b, Q a b) → List.Pairwise Q l
  | [], _ => List.Pairwise.nil
  | a :: l, h =>
    List.Pairwise.cons (fun b _ => h a (List.mem_cons_self a l) b)
      (pairwise_of_forall_left (fun x hx b => h x (List.mem_cons_of_mem a hx) b))

/-- Every member of the conditional deletion block is a `delWeigh` event
for the entered date, with the flag on and an id from the fetch. -/
theorem mem_delEvs {del : Bool} {fetched : List String} {d0 : String} {e : ApiEvent}
    (he : e ∈ (if del && !fetched.isEmpty then
      fetched.map (fun pk => ApiEvent.delWeigh pk d0) else [])) :
    ∃ pk, pk ∈ fetched ∧ e = ApiEvent.delWeigh pk d0 ∧ del = true := by
  by_cases hde : (del && !fetched.isEmpty) = true
  · rw [if_pos hde] at he
    obtain ⟨pk, hpk, heq⟩ := List.mem_map.mp he
    rw [Bool.and_eq_true] at hde
    exact ⟨pk, hpk, heq.symm, hde.1⟩
  · rw [if_neg hde] at he
    exact absurd he (List.not_mem_nil _)

/-- With the flag on, each fetched id produces its deletion event. -/
theorem delWeigh_mem_delEvs {del : Bool} {fetched : List String} {d0 pk : String}
    (hdel : del = true) (hpk : pk ∈ fetched) :
    ApiEvent.delWeigh pk d0 ∈ (if del && !fetched.isEmpty then
      fetched.map (fun p => ApiEvent.delWeigh p d0) else []) := by
  have hne : fetched.isEmpty = false := by
    cases hf : fetched with
    | nil => rw [hf] at hpk; exact absurd hpk (List.not_mem_nil _)
    | cons a l => rfl
  rw [hdel, hne]
  simp only [Bool.not_false, Bool.and_self, if_true]
  exact List.mem_map.mpr ⟨pk, hpk, rfl⟩

/-- Once a date has been entered, the remaining trace never sets the
watermark to it, fetches for it, or deletes for it again. -/
theorem loadLoop_noNew {del : Bool} {remote : String → List String} :
    ∀ {recs : List Record} {dates : List String} {props : Props}
      {tr : List ApiEvent} {p' : Props} {n : Nat},
      loadLoop del remote recs dates props = .ok (tr, p', n) →
      ∀ d ∈ dates, ApiEvent.setLast d ∉ tr ∧ ApiEvent.getDaily d ∉ tr ∧
        ∀ pk, ApiEvent.delWeigh pk d ∉ tr
  | [], dates, props, tr, p', n, h, d, hd => by
    injection h with h
    injection h with h1 h2
    subst h1
    simp
  | r :: rest, dates, props, tr, p', n, h, d, hd => by
    unfold loadLoop at h
    cases hts : tsDateISO r with
    | error e => simp [hts] at h
    | ok d0 =>
      simp only [hts] at h
      by_cases hmem : d0 ∈ dates
      · rw [if_pos hmem] at h
        cases hrec : loadLoop del remote rest dates props with
        | error e => simp [hrec] at h
        | ok res =>
          obtain ⟨evs, q, k⟩ := res
          simp only [hrec] at h
          injection h with h
          injection h with h1 h2
          subst h1
          obtain ⟨hs, hg, hw⟩ := loadLoop_noNew hrec d hd
          refine ⟨?_, ?_, fun pk => ?_⟩
          · simp [hs]
          · simp [hg]
          · simp [hw pk]
      · rw [if_neg hmem] at h
        cases hsl : setLastDate props d0 with
        | error e => rw [hsl] at h; exact absurd h (by simp)
        | ok props1 =>
          simp only [hsl] at h
          cases hrec : loadLoop del remote rest (dates ++ [d0]) props1 with
          | error e => simp [hrec] at h
          | ok res =>
            obtain ⟨evs, q, k⟩ := res
            simp only [hrec] at h
            injection h with h
            injection h with h1 h2
            subst h1
            have hdd0 : d ≠ d0 := fun hdd => hmem (hdd ▸ hd)
            obtain ⟨hs, hg, hw⟩ := loadLoop_noNew hrec d (List.mem_append_left _ hd)
            refine ⟨?_, ?_, fun pk => ?_⟩
            · intro hx
              simp only [List.mem_cons, List.mem_append] at hx
              rcases hx with h1 | h1 | h1 | h1 | h1
              · injection h1 with h1; exact hdd0 h1
              · cases h1
              · obtain ⟨pk', -, heq, -⟩ := mem_delEvs h1; cases heq
              · cases h1
              · exact hs h1
            · intro hx
              simp only [List.mem_cons, List.mem_append] at hx
              rcases hx with h1 | h1 | h1 | h1 | h1
              · cases h1
              · injection h1 with h1; exact hdd0 h1
              · obtain ⟨pk', -, heq, -⟩ := mem_delEvs h1; cases heq
              · cases h1
              · exact hg h1
            · intro hx
              simp only [List.mem_cons, List.mem_append] at hx
              rcases hx with h1 | h1 | h1 | h1 | h1
              · cases h1
              · cases h1
              · obtain ⟨pk', -, heq, -⟩ := mem_delEvs h1
                injection heq with he1 he2
                exact hdd0 he2
              · cases h1
              · exact hw pk h1

/-- The fetch events of the import loop: one per date of the remaining
records that is not yet entered. -/
theorem loadLoop_getDaily {del : Bool} {remote : String → List String} :
    ∀ {recs : List Record} {dates : List String} {props : Props}
      {tr : List ApiEvent} {p' : Props} {n : Nat},
      loadLoop del remote recs dates props = .ok (tr, p', n) →
      ∀ d, (ApiEvent.getDaily d ∈ tr ↔
        (d ∉ dates ∧ ∃ r ∈ recs, tsDateISO r = .ok d))
  | [], dates, props, tr, p', n, h, d => by
    injection h with h
    injection h with h1 h2
    subst h1
    simp
  | r :: rest, dates, props, tr, p', n, h, d => by
    unfold loadLoop at h
    cases hts : tsDateISO r with
    | error e => simp [hts] at h
    | ok d0 =>
      simp only [hts] at h
      by_cases hmem : d0 ∈ dates
      · rw [if_pos hmem] at h
        cases hrec : loadLoop del remote rest dates props with
        | error e => simp [hrec] at h
        | ok res =>
          obtain ⟨evs, q, k⟩ := res
          simp only [hrec] at h
          injection h with h
          injection h with h1 h2
          subst h1
          have ih := loadLoop_getDaily hrec d
          constructor
          · intro hx
            rcases List.mem_cons.mp hx with h1 | h1
            · cases h1
            · obtain ⟨hnd, r', hr', hd'⟩ := ih.mp h1
              exact ⟨hnd, r', List.mem_cons_of_mem _ hr', hd'⟩
          · rintro ⟨hnd, r', hr', hd'⟩
            rcases List.mem_cons.mp hr' with h1 | h1
            · subst h1
              rw [hts] at hd'
              injection hd' with hd'
              exact absurd (hd' ▸ hmem) hnd
            · exact List.mem_cons_of_mem _ (ih.mpr ⟨hnd, r', h1, hd'⟩)
      · rw [if_neg hmem] at h
        cases hsl : setLastDate props d0 with
        | error e => rw [hsl] at h; exact absurd h (by simp)
        | ok props1 =>
          simp only [hsl] at h
          cases hrec : loadLoop del remote rest (dates ++ [d0]) props1 with
          | error e => simp [hrec] at h
          | ok res =>
            obtain ⟨evs, q, k⟩ := res
            simp only [hrec] at h
            injection h with h
            injection h with h1 h2
            subst h1
            have ih := loadLoop_getDaily hrec d
            by_cases hd0 : d = d0
            · subst hd0
              constructor
              · intro _
                exact ⟨hmem, r, List.mem_cons_self _ _, hts⟩
              · intro _
                simp
            · constructor
              · intro hx
                simp only [List.mem_cons, List.mem_append] at hx
                rcases hx with h1 | h1 | h1 | h1 | h1
                · cases h1
                · injection h1 with h1; exact absurd h1 hd0
                · obtain ⟨pk', -, heq, -⟩ := mem_delEvs h1; cases heq
                · cases h1
                · obtain ⟨hnd, r', hr', hd'⟩ := ih.mp h1
                  refine ⟨fun hin => hnd (List.mem_append_left _ hin),
                    r', List.mem_cons_of_mem _ hr', hd'⟩
              · rintro ⟨hnd, r', hr', hd'⟩
                rcases List.mem_cons.mp hr' with h1 | h1
                · subst h1
                  rw [hts] at hd'
                  injection hd' with hd'
                  exact absurd hd'.symm hd0
                · have : ApiEvent.getDaily d ∈ evs := by
                    refine ih.mpr ⟨?_, r', h1, hd'⟩
                    intro hin
                    rcases List.mem_append.mp hin with h2 | h2
                    · exact hnd h2
                    · rw [List.mem_singleton] at h2
                      exact hd0 h2
                  simp [this]

/-- The watermark assignments of the import loop: one per date of the
remaining records that is not yet entered. -/
theorem loadLoop_setLast {del : Bool} {remote : String → List String} :
    ∀ {recs : List Record} {dates : List String} {props : Props}
      {tr : List ApiEvent} {p' : Props} {n : Nat},
      loadLoop del remote recs dates props = .ok (tr, p', n) →
      ∀ d, (ApiEvent.setLast d ∈ tr ↔
        (d ∉ dates ∧ ∃ r ∈ recs, tsDateISO r = .ok d))
  | [], dates, props, tr, p', n, h, d => by
    injection h with h
    injection h with h1 h2
    subst h1
    simp
  | r :: rest, dates, props, tr, p', n, h, d => by
    unfold loadLoop at h
    cases hts : tsDateISO r with
    | error e => simp [hts] at h
    | ok d0 =>
      simp only [hts] at h
      by_cases hmem : d0 ∈ dates
      · rw [if_pos hmem] at h
        cases hrec : loadLoop del remote rest dates props with
        | error e => simp [hrec] at h
        | ok res =>
          obtain ⟨evs, q, k⟩ := res
          simp only [hrec] at h
          injection h with h
          injection h with h1 h2
          subst h1
          have ih := loadLoop_setLast hrec d
          constructor
          · intro hx
            rcases List.mem_cons.mp hx with h1 | h1
            · cases h1
            · obtain ⟨hnd, r', hr', hd'⟩ := ih.mp h1
              exact ⟨hnd, r', List.mem_cons_of_mem _ hr', hd'⟩
          · rintro ⟨hnd, r', hr', hd'⟩
            rcases List.mem_cons.mp hr' with h1 | h1
            · subst h1
              rw [hts] at hd'
              injection hd' with hd'
              exact absurd (hd' ▸ hmem) hnd
            · exact List.mem_cons_of_mem _ (ih.mpr ⟨hnd, r', h1, hd'⟩)
      · rw [if_neg hmem] at h
        cases hsl : setLastDate props d0 with
        | error e => rw [hsl] at h; exact absurd h (by simp)
        | ok props1 =>
          simp only [hsl] at h
          cases hrec : loadLoop del remote rest (dates ++ [d0]) props1 with
          | error e => simp [hrec] at h
          | ok res =>
            obtain ⟨evs, q, k⟩ := res
            simp only [hrec] at h
            injection h with h
            injection h with h1 h2
            subst h1
            have ih := loadLoop_setLast hrec d
            by_cases hd0 : d = d0
            · subst hd0
              constructor
              · intro _
                exact ⟨hmem, r, List.mem_cons_self _ _, hts⟩
              · intro _
                simp
            · constructor
              · intro hx
                simp only [List.mem_cons, List.mem_append] at hx
                rcases hx with h1 | h1 | h1 | h1 | h1
                · injection h1 with h1; exact absurd h1 hd0
                · cases h1
                · obtain ⟨pk', -, heq, -⟩ := mem_delEvs h1; cases heq
                · cases h1
                · obtain ⟨hnd, r', hr', hd'⟩ := ih.mp h1
                  refine ⟨fun hin => hnd (List.mem_append_left _ hin),
                    r', List.mem_cons_of_mem _ hr', hd'⟩
              · rintro ⟨hnd, r', hr', hd'⟩
                rcases List.mem_cons.mp hr' with h1 | h1
                · subst h1
                  rw [hts] at hd'
                  injection hd' with hd'
                  exact absurd hd'.symm hd0
                · have : ApiEvent.setLast d ∈ evs := by
                    refine ih.mpr ⟨?_, r', h1, hd'⟩
                    intro hin
                    rcases List.mem_append.mp hin with h2 | h2
                    · exact hnd h2
                    · rw [List.mem_singleton] at h2
                      exact hd0 h2
                  simp [this]

/-- The deletion events of the import loop: exactly one per fetched id
of each newly entered date, and only with the flag on. -/
theorem loadLoop_delWeigh {del : Bool} {remote : String → List String} :
    ∀ {recs : List Record} {dates : List String} {props : Props}
      {tr : List ApiEvent} {p' : Props} {n : Nat},
      loadLoop del remote recs dates props = .ok (tr, p', n) →
      ∀ pk d, (ApiEvent.delWeigh pk d ∈ tr ↔
        (del = true ∧ d ∉ dates ∧ (∃ r ∈ recs, tsDateISO r = .ok d) ∧
          pk ∈ remote d))
  | [], dates, props, tr, p', n, h, pk, d => by
    injection h with h
    injection h with h1 h2
    subst h1
    simp
  | r :: rest, dates, props, tr, p', n, h, pk, d => by
    unfold loadLoop at h
    cases hts : tsDateISO r with
    | error e => simp [hts] at h
    | ok d0 =>
      simp only [hts] at h
      by_cases hmem : d0 ∈ dates
      · rw [if_pos hmem] at h
        cases hrec : loadLoop del remote rest dates props with
        | error e => simp [hrec] at h
        | ok res =>
          obtain ⟨evs, q, k⟩ := res
          simp only [hrec] at h
          injection h with h
          injection h with h1 h2
          subst h1
          have ih := loadLoop_delWeigh hrec pk d
          constructor
          · intro hx
            rcases List.mem_cons.mp hx with h1 | h1
            · cases h1
            · obtain ⟨hdel, hnd, ⟨r', hr', hd'⟩, hpk⟩ := ih.mp h1
              exact ⟨hdel, hnd, ⟨r', List.mem_cons_of_mem _ hr', hd'⟩, hpk⟩
          · rintro ⟨hdel, hnd, ⟨r', hr', hd'⟩, hpk⟩
            rcases List.mem_cons.mp hr' with h1 | h1
            · subst h1
              rw [hts] at hd'
              injection hd' with hd'
              exact absurd (hd' ▸ hmem) hnd
            · exact List.mem_cons_of_mem _ (ih.mpr ⟨hdel, hnd, ⟨r', h1, hd'⟩, hpk⟩)
      · rw [if_neg hmem] at h
        cases hsl : setLastDate props d0 with
        | error e => rw [hsl] at h; exact absurd h (by simp)
        | ok props1 =>
          simp only [hsl] at h
          cases hrec : loadLoop del remote rest (dates ++ [d0]) props1 with
          | error e => simp [hrec] at h
          | ok res =>
            obtain ⟨evs, q, k⟩ := res
            simp only [hrec] at h
            injection h with h
            injection h with h1 h2
            subst h1
            have ih := loadLoop_delWeigh hrec pk d
            by_cases hd0 : d = d0
            · subst hd0
              constructor
              · intro hx
                simp only [List.mem_cons, List.mem_append] at hx
                rcases hx with h1 | h1 | h1 | h1 | h1
                · cases h1
                · cases h1
                · obtain ⟨pk', hpk', heq, hdel⟩ := mem_delEvs h1
                  injection heq with he1 he2
                  subst he1
                  exact ⟨hdel, hmem, ⟨r, List.mem_cons_self _ _, hts⟩, hpk'⟩
                · cases h1
                · obtain ⟨-, hnd, -, -⟩ := ih.mp h1
                  exact absurd (List.mem_append_right _ (List.mem_singleton_self _)) hnd
              · rintro ⟨hdel, hnd, -, hpk⟩
                have : ApiEvent.delWeigh pk d ∈ (if del && !(remote d).isEmpty then
                    (remote d).map (fun p => ApiEvent.delWeigh p d) else []) :=
                  delWeigh_mem_delEvs hdel hpk
                simp only [List.mem_cons, List.mem_append]
                exact Or.inr (Or.inr (Or.inl this))
            · constructor
              · intro hx
                simp only [List.mem_cons, List.mem_append] at hx
                rcases hx with h1 | h1 | h1 | h1 | h1
                · cases h1
                · cases h1
                · obtain ⟨pk', -, heq, -⟩ := mem_delEvs h1
                  injection heq with he1 he2
                  exact absurd he2 hd0
                · cases h1
                · obtain ⟨hdel, hnd, ⟨r', hr', hd'⟩, hpk⟩ := ih.mp h1
                  refine ⟨hdel, fun hin => hnd (List.mem_append_left _ hin),
                    ⟨r', List.mem_cons_of_mem _ hr', hd'⟩, hpk⟩
              · rintro ⟨hdel, hnd, ⟨r', hr', hd'⟩, hpk⟩
                rcases List.mem_cons.mp hr' with h1 | h1
                · subst h1
                  rw [hts] at hd'
                  injection hd' with hd'
                  exact absurd hd'.symm hd0
                · have : ApiEvent.delWeigh pk d ∈ evs := by
                    refine ih.mpr ⟨hdel, ?_, ⟨r', h1, hd'⟩, hpk⟩
                    intro hin
                    rcases List.mem_append.mp hin with h2 | h2
                    · exact hnd h2
                    · rw [List.mem_singleton] at h2
                      exact hd0 h2
                  simp [this]

/-- In the import trace, the deletions for a date all precede every push
of a record of that date. -/
theorem loadLoop_pairwise_del {del : Bool} {remote : String → List String} :
    ∀ {recs : List Record} {dates : List String} {props : Props}
      {tr : List ApiEvent} {p' : Props} {n : Nat},
      loadLoop del remote recs dates props = .ok (tr, p', n) →
      List.Pairwise noAddThenDel tr
  | [], dates, props, tr, p', n, h => by
    injection h with h
    injection h with h1 h2
    subst h1
    exact List.Pairwise.nil
  | r :: rest, dates, props, tr, p', n, h => by
    unfold loadLoop at h
    cases hts : tsDateISO r with
    | error e => simp [hts] at h
    | ok d0 =>
      simp only [hts] at h
      by_cases hmem : d0 ∈ dates
      · rw [if_pos hmem] at h
        cases hrec : loadLoop del remote rest dates props with
        | error e => simp [hrec] at h
        | ok res =>
          obtain ⟨evs, q, k⟩ := res
          simp only [hrec] at h
          injection h with h
          injection h with h1 h2
          subst h1
          refine List.Pairwise.cons ?_ (loadLoop_pairwise_del hrec)
          intro b hb r' pk d h1 h2'
          injection h1 with h1
          subst h1
          subst h2'
          intro hd'
          rw [hts] at hd'
          injection hd' with hd'
          subst hd'
          obtain ⟨-, -, hw⟩ := loadLoop_noNew hrec d0 hmem
          exact hw pk hb
      · rw [if_neg hmem] at h
        cases hsl : setLastDate props d0 with
        | error e => rw [hsl] at h; exact absurd h (by simp)
        | ok props1 =>
          simp only [hsl] at h
          cases hrec : loadLoop del remote rest (dates ++ [d0]) props1 with
          | error e => simp [hrec] at h
          | ok res =>
            obtain ⟨evs, q, k⟩ := res
            simp only [hrec] at h
            injection h with h
            injection h with h1 h2
            subst h1
            refine List.Pairwise.cons (fun b _ => noAddThenDel_of_not_add (by simp) b)
              (List.Pairwise.cons (fun b _ => noAddThenDel_of_not_add (by simp) b) ?_)
            rw [List.pairwise_append]
            refine ⟨?_, ?_, ?_⟩
            · refine pairwise_of_forall_left ?_
              intro a ha b
              obtain ⟨pk', -, heq, -⟩ := mem_delEvs ha
              subst heq
              exact noAddThenDel_of_not_add (by simp) b
            · refine List.Pairwise.cons ?_ (loadLoop_pairwise_del hrec)
              intro b hb r' pk d h1 h2'
              injection h1 with h1
              subst h1
              subst h2'
              intro hd'
              rw [hts] at hd'
              injection hd' with hd'
              subst hd'
              obtain ⟨-, -, hw⟩ :=
                loadLoop_noNew hrec d0 (List.mem_append_right _ (List.mem_singleton_self _))
              exact hw pk hb
            · intro a ha b _
              obtain ⟨pk', -, heq, -⟩ := mem_delEvs ha
              subst heq
              exact noAddThenDel_of_not_add (by simp) b

/-- In the import trace, the watermark assignment for a date precedes
every push of a record of that date. -/
theorem loadLoop_pairwise_set {del : Bool} {remote : String → List String} :
    ∀ {recs : List Record} {dates : List String} {props : Props}
      {tr : List ApiEvent} {p' : Props} {n : Nat},
      loadLoop del remote recs dates props = .ok (tr, p', n) →
      List.Pairwise noAddThenSet tr
  | [], dates, props, tr, p', n, h => by
    injection h with h
    injection h with h1 h2
    subst h1
    exact List.Pairwise.nil
  | r :: rest, dates, props, tr, p', n, h => by
    unfold loadLoop at h
    cases hts : tsDateISO r with
    | error e => simp [hts] at h
    | ok d0 =>
      simp only [hts] at h
      by_cases hmem : d0 ∈ dates
      · rw [if_pos hmem] at h
        cases hrec : loadLoop del remote rest dates props with
        | error e => simp [hrec] at h
        | ok res =>
          obtain ⟨evs, q, k⟩ := res
          simp only [hrec] at h
          injection h with h
          injection h with h1 h2
          subst h1
          refine List.Pairwise.cons ?_ (loadLoop_pairwise_set hrec)
          intro b hb r' d h1 h2'
          injection h1 with h1
          subst h1
          subst h2'
          intro hd'
          rw [hts] at hd'
          injection hd' with hd'
          subst hd'
          obtain ⟨hs, -, -⟩ := loadLoop_noNew hrec d0 hmem
          exact hs hb
      · rw [if_neg hmem] at h
        cases hsl : setLastDate props d0 with
        | error e => rw [hsl] at h; exact absurd h (by simp)
        | ok props1 =>
          simp only [hsl] at h
          cases hrec : loadLoop del remote rest (dates ++ [d0]) props1 with
          | error e => simp [hrec] at h
          | ok res =>
            obtain ⟨evs, q, k⟩ := res
            simp only [hrec] at h
            injection h with h
            injection h with h1 h2
            subst h1
            refine List.Pairwise.cons (fun b _ => noAddThenSet_of_not_add (by simp) b)
              (List.Pairwise.cons (fun b _ => noAddThenSet_of_not_add (by simp) b) ?_)
            rw [List.pairwise_append]
            refine ⟨?_, ?_, ?_⟩
            · refine pairwise_of_forall_left ?_
              intro a ha b
              obtain ⟨pk', -, heq, -⟩ := mem_delEvs ha
              subst heq
              exact noAddThenSet_of_not_add (by simp) b
            · refine List.Pairwise.cons ?_ (loadLoop_pairwise_set hrec)
              intro b hb r' d h1 h2'
              injection h1 with h1
              subst h1
              subst h2'
              intro hd'
              rw [hts] at hd'
              injection hd' with hd'
              subst hd'
              obtain ⟨hs, -, -⟩ :=
                loadLoop_noNew hrec d0 (List.mem_append_right _ (List.mem_singleton_self _))
              exact hs hb
            · intro a ha b _
              obtain ⟨pk', -, heq, -⟩ := mem_delEvs ha
              subst heq
              exact noAddThenSet_of_not_add (by simp) b

/-! Claim theorems. -/

/-- C2: field extraction is total over every mapping rule type and raw
value: `getMappingColumnValue` returns a plain `Option` (no exception
escapes), and whenever the extraction body raises (any coercion or
extraction failure) the swallowed result is absent. -/
theorem c2_extraction_total (m : MapInfo) (row : Row) (c : String) (e : PyErr)
    (h : getMappingColumnValueBody m row c = .error e) :
    getMappingColumnValue m row c = none := by
  unfold getMappingColumnValue
  rw [h]

/-- Witness for C2: a `value`-typed rule over an uncoercible cell raises
`ValueError` in the body, and the public extraction yields absent. -/
theorem c2_witness :
    getMappingColumnValueBody mVal rowVal "x" = .error .valueError ∧
    getMappingColumnValue mVal rowVal "x" = none :=
  ⟨rfl, c2_extraction_total mVal rowVal "x" .valueError rfl⟩

/-- C3: the acceptance scenario (mandatory timestamp and weight; rows
valid, duplicate-timestamp, missing-weight) yields exactly one record —
timestamp 2024-01-01 08:00 with weight 70.5 — and reports 3 rows read,
1 inserted, 2 discarded. -/
theorem c3_scenario :
    processWeightFile props3 m3 JVal.null parseYmdHM csv3 [] =
      .ok ([rec3], 3, 1, 2) := by
  rfl

/-- C6: with the `callAPI` flag disabled the importer performs no remote
call at all (empty event trace) and leaves the settings document — hence
the in-memory watermark `data.lastDate` — unchanged. -/
theorem c6_dry_run (props : Props) (bc : List Record) (remote : String → List String)
    (h : flagValue props "data" "callAPI" = false) :
    loadDataOnGarminConnect props bc remote = .ok ([], props, 0) := by
  unfold loadDataOnGarminConnect
  rw [h]
  rfl

/-- Witness for C6: a settings document without `callAPI` leaves a
populated record set alone. -/
theorem c6_witness :
    flagValue [("data", [])] "data" "callAPI" = false ∧
    loadDataOnGarminConnect [("data", [])] [rec7] (fun _ => []) =
      .ok ([], [("data", [])], 0) :=
  ⟨rfl, c6_dry_run [("data", [])] [rec7] (fun _ => []) rfl⟩

/-- Counterexample to C7 as stated: with `deleteOldData` not configured
the claim asserts no fetch of existing remote entries happens, but
importing a single record still calls `get_daily_weigh_ins` for its
date. -/
theorem c7_counterexample :
    flagValue props7 "data" "deleteOldData" = false ∧
    loadDataOnGarminConnect props7 [rec7] (fun _ => []) =
      .ok (trace7,
        [("data", [("callAPI", JVal.str "True"), ("lastDate", JVal.str "2024-01-01")])],
        1) ∧
    ApiEvent.getDaily "2024-01-01" ∈ trace7 := by
  refine ⟨rfl, rfl, ?_⟩
  simp [trace7]

/-- C7 amended: with `callAPI` enabled, the importer fetches the
existing remote entries for a calendar date exactly when some record of
that date is imported — regardless of the delete-old-data flag; it
deletes exactly the fetched entries of those dates, and only with the
delete-old-data flag configured; and the watermark assignment for a date
and its deletions all precede every push of a record of that date. -/
theorem c7_delete_fetch (props : Props) (bc : List Record)
    (remote : String → List String) (tr : List ApiEvent) (p' : Props) (n : Nat)
    (hapi : flagValue props "data" "callAPI" = true)
    (h : loadDataOnGarminConnect props bc remote = .ok (tr, p', n)) :
    (∀ d, ApiEvent.getDaily d ∈ tr ↔ ∃ r ∈ bc, tsDateISO r = .ok d) ∧
    (∀ pk d, ApiEvent.delWeigh pk d ∈ tr ↔
      (flagValue props "data" "deleteOldData" = true ∧
        (∃ r ∈ bc, tsDateISO r = .ok d) ∧ pk ∈ remote d)) ∧
    (∀ d, (∃ r ∈ bc, tsDateISO r = .ok d) → ApiEvent.setLast d ∈ tr) ∧
    List.Pairwise noAddThenDel tr ∧
    List.Pairwise noAddThenSet tr := by
  unfold loadDataOnGarminConnect at h
  rw [if_pos hapi] at h
  refine ⟨fun d => ?_, fun pk d => ?_, fun d hd => ?_, loadLoop_pairwise_del h,
    loadLoop_pairwise_set h⟩
  · have := loadLoop_getDaily h d
    simpa using this
  · have := loadLoop_delWeigh h pk d
    simpa using this
  · exact (loadLoop_setLast h d).mpr ⟨by simp, hd⟩

/-- Settings with both the remote-call and the delete flags on. -/
def props7d : Props :=
  [("data", [("callAPI", JVal.str "True"), ("deleteOldData", JVal.str "True")])]

/-- Settings `props7d` after the watermark assignment. -/
def props7d' : Props :=
  [("data", [("callAPI", JVal.str "True"), ("deleteOldData", JVal.str "True"),
    ("lastDate", JVal.str "2024-01-01")])]

/-- Remote account holding one weigh-in for every date. -/
def remote7 : String → List String := fun _ => ["pk1"]

/-- Trace of the import of `rec7` under `props7d` and `remote7`. -/
def trace7d : List ApiEvent :=
  [.setLast "2024-01-01", .getDaily "2024-01-01",
   .delWeigh "pk1" "2024-01-01", .addBody rec7]

/-- Witness for C7: the one-record import with the delete flag on
fetches, deletes the fetched entry, and orders events as amended. -/
theorem c7_witness :
    (∀ d, ApiEvent.getDaily d ∈ trace7d ↔ ∃ r ∈ [rec7], tsDateISO r = .ok d) ∧
    (∀ pk d, ApiEvent.delWeigh pk d ∈ trace7d ↔
      (flagValue props7d "data" "deleteOldData" = true ∧
        (∃ r ∈ [rec7], tsDateISO r = .ok d) ∧ pk ∈ remote7 d)) ∧
    (∀ d, (∃ r ∈ [rec7], tsDateISO r = .ok d) → ApiEvent.setLast d ∈ trace7d) ∧
    List.Pairwise noAddThenDel trace7d ∧
    List.Pairwise noAddThenSet trace7d :=
  c7_delete_fetch props7d [rec7] remote7 trace7d props7d' 1 rfl (by rfl)

/-- The `weight` coercion as the code performs it: maximal leading run of
digit or decimal-point characters, parsed with `float`; absent when the
run is empty or is not a valid float literal. -/
def weightCoerce (v : PyVal) : Option PyVal :=
  match weightLead (pyStr v).toList with
  | none => none
  | some tok => (parseFloat? (String.mk tok)).map PyVal.num

/-- Counterexample to C8 as stated: on raw value `"1.2.3"` the leading
numeric token with a single decimal point is `"1.2"`, so the claim
predicts 1.2, but the code's regex grabs `"1.2.3"`, `float` fails, and
the result is absent. -/
theorem c8_counterexample :
    getMappingColumnValue mW8 rowW8 "weight" ≠
      (specWeightExtract (pyStr (PyVal.str "1.2.3"))).map PyVal.num := by
  decide

/-- C8 amended: a rule of type `weight` yields the maximal leading run of
digit and decimal-point characters of the stringified value parsed as a
float, and is absent when the string starts with no such character or the
run fails float parsing (for instance with two decimal points). -/
theorem c8_weight_coercion (m : MapInfo) (row : Row) (c srcName : String)
    (rule : MapRule) (v : PyVal)
    (h1 : assoc c m = some rule) (h2 : assoc "name" rule = some (JVal.str srcName))
    (h3 : assoc srcName row = some v)
    (h4 : assoc "type" rule = some (JVal.str "weight")) :
    getMappingColumnValue m row c = weightCoerce v := by
  unfold getMappingColumnValue getMappingColumnValueBody weightCoerce
  simp only [h1, h2, h3, h4, Option.getD_some, reduceIte]
  cases hw : weightLead (pyStr v).toList with
  | none => simp
  | some tok =>
    cases hp : parseFloat? (String.mk tok) with
    | none => simp [hp]
    | some q => simp [hp]

/-- Witness for C8: the weight rule over `"70.5kg"` follows the amended
coercion (and yields 70.5). -/
theorem c8_witness :
    getMappingColumnValue mW8 rowW8b "weight" = weightCoerce (PyVal.str "70.5kg") :=
  c8_weight_coercion mW8 rowW8b "weight" "W" _ _ rfl rfl rfl rfl

/-- C10: every boolean-like configuration value is true exactly when it
is the string `"True"`: the flag computation compares the looked-up value
with `'True'`; the JSON boolean `true` and the string `"true"` read as
disabled; a mapping rule is mandatory exactly when its `mandatory` entry
is the string `"True"`. -/
theorem c10_flags_exact_string :
    (∀ (props : Props) (sec n : String), flagValue props sec n = true ↔
      getPropertyValue props sec n (JVal.str "False") = JVal.str "True")
    ∧ (∀ n : String, flagValue [("data", [(n, JVal.bool true)])] "data" n = false)
    ∧ (∀ n : String, flagValue [("data", [(n, JVal.str "true")])] "data" n = false)
    ∧ (∀ (m : MapInfo) (k : String), isMandatoryKey m k = true ↔
      ∃ rule, assoc k m = some rule ∧ assoc "mandatory" rule = some (JVal.str "True")) := by
  refine ⟨fun props sec n => ?_, fun n => ?_, fun n => ?_, fun m k => ?_⟩
  · unfold flagValue
    exact decide_eq_true_iff
  · simp [flagValue, getPropertyValue, assoc]
  · simp [flagValue, getPropertyValue, assoc]
  · unfold isMandatoryKey
    cases hm : assoc k m with
    | none => simp
    | some rule =>
      cases hr : assoc "mandatory" rule with
      | none => simp [hr]
      | some v => simp [hr]

/-- The timestamp entry of a normalized record is exactly the timestamp
extraction of the source row. -/
theorem tsCell_rowValues (m : MapInfo) (row : Row) :
    tsCell (getMappingRowValues m row) = getMappingColumnValue m row "timestamp" := by
  simp [tsCell, getMappingRowValues, bcColumns, assoc]

/-- C1: every record set reachable from the empty one by successful
`processWeightFile` calls has pairwise distinct timestamps and is sorted
ascending by timestamp. -/
theorem c1_recordset_invariant (bc : List Record) (h : ReachableBC bc) :
    tsDistinct bc ∧ List.Sorted recLE bc := by
  induction h with
  | empty => exact ⟨List.Pairwise.nil, List.sorted_nil⟩
  | step hreach hcall ih =>
    obtain ⟨-, -, rows, bc1, ins, hp, hl, hout⟩ := processWeightFile_ok_elim hcall
    have hbc' := congrArg Prod.fst hout
    simp only at hbc'
    have hperm := List.perm_insertionSort recLE bc1
    have hdist1 : tsDistinct bc1 := insertLoop_distinct hl ih.1
    rw [hbc']
    constructor
    · exact (hperm.pairwise_iff (fun hxy => (optEqB_symm _ _).trans hxy)).mpr hdist1
    · exact List.sorted_insertionSort recLE bc1

/-- Witness for C1: the record set of the acceptance scenario is
reachable, with distinct timestamps and sorted. -/
theorem c1_witness : tsDistinct [rec3] ∧ List.Sorted recLE [rec3] := by
  have hstep : processWeightFile props3 m3 JVal.null parseYmdHM csv3 [] =
      Except.ok ([rec3], 3, 1, 2) := rfl
  exact c1_recordset_invariant [rec3] (ReachableBC.step ReachableBC.empty hstep)

/-- C4: a successful `processWeightFile` call only inserts rows whose
ISO-formatted timestamp date passes the watermark comparison (so a date
string strictly below the watermark is never inserted), and with no
watermark configured the watermark test passes every date. -/
theorem c4_watermark_filter (props : Props) (m : MapInfo) (ld : JVal)
    (pts : String → Option PyDatetime) (csv : Csv) (bc bc' : List Record)
    (f i dsc : Nat)
    (h : processWeightFile props m ld pts csv bc = .ok (bc', f, i, dsc)) :
    (∀ r ∈ bc', r ∉ bc →
      ∃ d, tsDateISO r = .ok d ∧ watermarkTest ld d = .ok true) ∧
    (∀ d, watermarkTest JVal.null d = .ok true) := by
  obtain ⟨-, -, rows, bc1, ins, hp, hl, hout⟩ := processWeightFile_ok_elim h
  have hbc' := congrArg Prod.fst hout
  simp only at hbc'
  constructor
  · intro r hr hnb
    rw [hbc'] at hr
    have hr1 : r ∈ bc1 := (List.mem_insertionSort recLE).mp hr
    rcases insertLoop_inserted hl r hr1 with hin | hpass
    · exact absurd hin hnb
    · exact hpass
  · intro d
    rfl

/-- Witness for C4: with watermark `2024-01-02`, the run over `csv4`
inserts only the 2024-01-02 row, which passes the watermark test. -/
theorem c4_witness :
    (∀ r ∈ [rec4], r ∉ ([] : List Record) →
      ∃ d, tsDateISO r = .ok d ∧
        watermarkTest (JVal.str "2024-01-02") d = .ok true) ∧
    (∀ d, watermarkTest JVal.null d = .ok true) :=
  c4_watermark_filter props3 m3 (JVal.str "2024-01-02") parseYmdHM csv4 [] [rec4]
    2 1 1 (by rfl)

/-- C5: rerunning `processWeightFile` on the same file with the same
watermark over the record set the first run produced inserts zero
records and returns the record set unchanged. -/
theorem c5_idempotent (props : Props) (m : MapInfo) (ld : JVal)
    (pts : String → Option PyDatetime) (csv : Csv) (bc bc1 : List Record)
    (f i dsc : Nat)
    (h : processWeightFile props m ld pts csv bc = .ok (bc1, f, i, dsc)) :
    processWeightFile props m ld pts csv bc1 = .ok (bc1, f, 0, f) := by
  obtain ⟨h1, h2, rows, bc1', ins, hp, hl, hout⟩ := processWeightFile_ok_elim h
  have hbc1 := congrArg Prod.fst hout
  simp only at hbc1
  have hf : f = rows.length := by
    have := congrArg (fun p => p.2.1) hout
    simpa using this
  have hperm := List.perm_insertionSort recLE bc1'
  have hall : ∀ row ∈ rows, considered (flagValue props "data" "filterByUser")
      (getPropertyValue props "data" "user" JVal.null) m row = true →
      ∃ d w, tsDateISO (getMappingRowValues m row) = .ok d ∧
        watermarkTest ld d = .ok w ∧
        (w = true → validMandatoryValues m (getMappingRowValues m row) = true →
          tsIn (tsCell (getMappingRowValues m row)) bc1 = true) := by
    intro row hrow hc
    obtain ⟨d, w, hd, hw, himp⟩ := insertLoop_mem_final hl row hrow hc
    refine ⟨d, w, hd, hw, fun hwt hv => ?_⟩
    rw [hbc1, tsIn_perm _ hperm]
    exact himp hwt hv
  have hl2 : insertLoop m ld (flagValue props "data" "filterByUser")
      (getPropertyValue props "data" "user" JVal.null) rows bc1 0 = .ok (bc1, 0) :=
    insertLoop_noop hall
  have hres := processWeightFile_ok_intro h1 h2 hp hl2
  have hsorted : List.Sorted recLE bc1 := by
    rw [hbc1]
    exact List.sorted_insertionSort recLE bc1'
  rw [hres, List.Sorted.insertionSort_eq hsorted, hf]
  simp

/-- Witness for C5: rerunning the acceptance scenario over its own
output inserts nothing and keeps the single record. -/
theorem c5_witness :
    processWeightFile props3 m3 JVal.null parseYmdHM csv3 [rec3] =
      .ok ([rec3], 3, 0, 3) :=
  c5_idempotent props3 m3 JVal.null parseYmdHM csv3 [] [rec3] 3 1 2 (by rfl)

/-- C9: a successful `processWeightFile` call certifies that the schema
has a timestamp rule whose source column is a string present in the CSV
header, and that timestamp extraction yielded a present value for every
considered row — so a missing rule, a missing column, or an absent
extraction makes the call raise rather than skip. -/
theorem c9_timestamp_errors (props : Props) (m : MapInfo) (ld : JVal)
    (pts : String → Option PyDatetime) (csv : Csv) (bc : List Record)
    (out : List Record × Nat × Nat × Nat)
    (h : processWeightFile props m ld pts csv bc = .ok out) :
    (∃ n, tsRuleName m = .ok n ∧ n ∈ csv.header) ∧
    ∃ rows, prepRows props m pts csv = .ok rows ∧
      ∀ row ∈ rows, considered (flagValue props "data" "filterByUser")
          (getPropertyValue props "data" "user" JVal.null) m row = true →
        getMappingColumnValue m row "timestamp" ≠ none := by
  obtain ⟨-, -, rows, bc1, ins, hp, hl, -⟩ := processWeightFile_ok_elim h
  constructor
  · have hp2 := hp
    unfold prepRows at hp2
    cases ht : tsRuleName m with
    | error e => rw [ht] at hp2; exact absurd hp2 (by simp)
    | ok n =>
      simp only [ht] at hp2
      by_cases hmem : n ∈ csv.header
      · exact ⟨n, rfl, hmem⟩
      · rw [if_neg hmem] at hp2
        exact absurd hp2 (by simp)
  · refine ⟨rows, hp, fun row hrow hc hnone => ?_⟩
    obtain ⟨d, hd⟩ := insertLoop_ok_ts hl row hrow hc
    unfold tsDateISO at hd
    rw [tsCell_rowValues, hnone] at hd
    exact absurd hd (by simp)

/-- Witness for C9: the acceptance scenario run certifies the timestamp
rule, the column presence, and present extraction on every row. -/
theorem c9_witness :
    (∃ n, tsRuleName m3 = .ok n ∧ n ∈ csv3.header) ∧
    ∃ rows, prepRows props3 m3 parseYmdHM csv3 = .ok rows ∧
      ∀ row ∈ rows, considered (flagValue props3 "data" "filterByUser")
          (getPropertyValue props3 "data" "user" JVal.null) m3 row = true →
        getMappingColumnValue m3 row "timestamp" ≠ none :=
  c9_timestamp_errors props3 m3 JVal.null parseYmdHM csv3 [] ([rec3], 3, 1, 2)
    (by rfl)

end ImportBC

